import Mathlib

/-!
Verification development for the `odm-path` rail-flow script.

The script turns a set of track-centreline geometries into a node/edge
graph (`get_source_target`), builds a sparse weighted adjacency array
(`get_csr_array`), computes shortest paths and predecessor trees with
`scipy.sparse.csgraph.shortest_path`, extracts direct hub-to-hub segments
(`get_all_cs_segment` / `get_source_cs_segment`), and distributes
origin-destination passenger flow onto elemental edges
(`source_cs_path` / `crs_model` / `main`).

This file shallowly embeds those functions over lists and exact integer
arithmetic and proves, or refutes, the specification claims about them.
Coordinates and geometry lengths are exact integers, an idealisation of
the float data on which none of the claims depend; lengths are supplied
as data (geometry is an external collaborator).  The scipy shortest-path
collaborator is modelled by a Floyd-Warshall min-plus iteration over
`Option ℤ` (`none` standing for an infinite distance), together with a
checkable predicate `predOk` characterising a valid single-source
shortest-path predecessor array as scipy documents it.
-/

namespace OdmPath

/-- Planar coordinates in the fixed CRS, as exact integers. -/
abbrev Coord : Type := ℤ × ℤ

/-- Squared euclidean distance between two coordinates: the comparison key
used by the spatial-index nearest query (monotone in true distance). -/
def sqDist (p q : Coord) : ℤ :=
  (p.1 - q.1) ^ 2 + (p.2 - q.2) ^ 2

/-- A LineString: at least two coordinates.  `get_source_target` keeps only
the first and last coordinate of each line (the index-duplication mask drops
interior vertices), so interior vertices are carried but unused. -/
structure Line where
  first : Coord
  mid : List Coord
  last : Coord
deriving DecidableEq

/-- The exploded endpoint sequence: for each line its first then its last
coordinate, in input order (`line.map(get_coordinates).explode()` after the
interior mask). -/
def allEndpoints (lines : List Line) : List Coord :=
  lines.flatMap (fun l => [l.first, l.last])

/-- Deduplication keeping the first occurrence of each element, in order of
first appearance.  (`List.dedup` keeps last occurrences, so reverse twice.) -/
def dedupFirst {α : Type} [DecidableEq α] (l : List α) : List α :=
  l.reverse.dedup.reverse

/-- The node coordinate list: endpoint coordinates with exact duplicates
collapsed to a single node (`node.groupby("geometry")`).  Only the set of
distinct coordinates matters to the claims proved here; the enumeration
order (a pandas group-key ordering) is modelled as first appearance. -/
def nodesOf (lines : List Line) : List Coord :=
  dedupFirst (allEndpoints lines)

/-- Nearest-scan kernel: walks the remaining node coordinates, keeping the
index and squared distance of the best candidate so far (strict improvement,
so the first of several equidistant nodes wins). -/
def nearestFrom (p : Coord) : List Coord → ℕ → ℕ × ℤ → ℕ × ℤ
  | [], _, b => b
  | c :: cs, i, b =>
      nearestFrom p cs (i + 1) (if sqDist p c < b.2 then (i, sqDist p c) else b)

/-- Nearest node index for a query point
(`node["geometry"].sindex.nearest(..., return_all=False)`): the index of a
node minimising distance, `none` only when there are no nodes at all.
There is no distance cutoff of any kind. -/
def nearestNode (nodes : List Coord) (p : Coord) : Option ℕ :=
  match nodes with
  | [] => none
  | c :: cs => some (nearestFrom p cs 1 (0, sqDist p c)).1

/-- Node id of an endpoint as `get_source_target` records it: the column is
initialised to `-1` and overwritten with the nearest-node index. -/
def nodeIdOf (nodes : List Coord) (p : Coord) : Int :=
  match nearestNode nodes p with
  | some i => (i : Int)
  | none => -1

/-- The (source, target) pair of one input line after the canonical sort
`np.sort(edge[["source","target"]], axis=1)`: smaller id first. -/
def rawEdge (nodes : List Coord) (l : Line) : Int × Int :=
  (min (nodeIdOf nodes l.first) (nodeIdOf nodes l.last),
   max (nodeIdOf nodes l.first) (nodeIdOf nodes l.last))

/-- The extracted edge pair list: one sorted pair per line, with duplicate
(source, target) pairs dropped keeping the first
(`edge.drop_duplicates(subset=["source","target"])`).  Edge ids are the
dense positions in this list.  Note there is no filter removing pairs with
equal components. -/
def edgesOf (lines : List Line) : List (Int × Int) :=
  dedupFirst (lines.map (rawEdge (nodesOf lines)))

/-- A graph edge after simplification: canonical (source, target) node pair
and a geometry length, the weight used in the sparse array. -/
structure Edge where
  source : ℕ
  target : ℕ
  length : ℤ
deriving DecidableEq

/-- Entry (i, j) of the compressed sparse array built by `get_csr_array`:
the csr constructor sums the data values of duplicate (row, col) index pairs,
and absent pairs are zero.  Only the stored (source, target) orientation is
written; nothing writes the transpose. -/
def csrEntry (edges : List Edge) (i j : ℕ) : ℤ :=
  ((edges.filter (fun e => decide (e.source = i ∧ e.target = j))).map Edge.length).sum

/-- Whether position (i, j) of the sparse array is a stored entry. -/
def csrHas (edges : List Edge) (i j : ℕ) : Bool :=
  edges.any (fun e => decide (e.source = i ∧ e.target = j))

/-- Matrix dimension `np.max(edge[["source","target"]]) + 1`. -/
def imaxOf (edges : List Edge) : ℕ :=
  (edges.map (fun e => max e.source e.target)).foldr max 0 + 1

/-- Weight of the stored orientation (i, j): present iff some edge is stored
there.  `none` is a non-stored position (no edge for the path algorithms). -/
def wt (edges : List Edge) (i j : ℕ) : Option ℤ :=
  if csrHas edges i j then some (csrEntry edges i j) else none

/-- Minimum of two optional distances, `none` being infinite. -/
def optMin : Option ℤ → Option ℤ → Option ℤ
  | none, b => b
  | some a, none => some a
  | some a, some b => some (min a b)

/-- Sum of two optional distances, `none` being infinite. -/
def optAdd : Option ℤ → Option ℤ → Option ℤ
  | some a, some b => some (a + b)
  | _, _ => none

/-- Effective undirected weight used by `shortest_path(..., directed=False)`:
the algorithm may traverse i→j along csgraph[i, j] or csgraph[j, i], so the
effective weight is the minimum of the two stored orientations. -/
def symWt (edges : List Edge) (i j : ℕ) : Option ℤ :=
  optMin (wt edges i j) (wt edges j i)

/-- Distance matrix before any relaxation: zero on the diagonal, direct
edge weight elsewhere. -/
def fwInit (edges : List Edge) : ℕ → ℕ → Option ℤ :=
  fun i j => if i = j then some 0 else symWt edges i j

/-- One Floyd-Warshall relaxation round through intermediate node k. -/
def fwStep (d : ℕ → ℕ → Option ℤ) (k : ℕ) : ℕ → ℕ → Option ℤ :=
  fun i j => optMin (d i j) (optAdd (d i k) (d k j))

/-- Floyd-Warshall iterate: rounds 0..k-1 applied to the initial matrix. -/
def fwIter (edges : List Edge) : ℕ → (ℕ → ℕ → Option ℤ)
  | 0 => fwInit edges
  | k + 1 => fwStep (fwIter edges k) k

/-- Shortest-path distance of the engine (`shortest_path` on the csr array
with `directed=False`), modelled as min-plus Floyd-Warshall over all nodes
of the matrix; `none` is scipy's infinite distance. -/
def dist (edges : List Edge) (i j : ℕ) : Option ℤ :=
  fwIter edges (imaxOf edges) i j

/-- Checkable characterisation of the predecessor array scipy returns for a
single-source run (`return_predecessors=True`): the source and every
unreachable node carry the sentinel -9999, and every other node t within
range carries a predecessor p whose edge (in either stored orientation)
closes the shortest distance to t.  The walks below consume such arrays. -/
def predOk (edges : List Edge) (source : ℕ) (pred : ℕ → Int) (n : ℕ) : Bool :=
  decide (pred source = -9999) &&
  (List.range n).all (fun t =>
    if t = source then true
    else
      match dist edges source t with
      | none => decide (pred t = -9999)
      | some _ =>
          match pred t with
          | Int.ofNat p =>
              decide (p < n) &&
              decide (dist edges source t = optAdd (dist edges source p) (symWt edges p t))
          | Int.negSucc _ => false)

/-- Predecessor chain above a node: the successive predecessors of `cur`
(not including `cur`), stopping at the -9999 sentinel, as collected column
by column by the array loop in `source_cs_path`.  Fuel bounds the walk; the
script's loop terminates because predecessor trees are acyclic. -/
def chainFull (pred : ℕ → Int) : ℕ → ℕ → List ℕ
  | 0, _ => []
  | fuel + 1, cur =>
      if pred cur = -9999 then []
      else (pred cur).toNat :: chainFull pred fuel (pred cur).toNat

/-- Reconstructed path for one target: the collected column reversed, so it
runs from the walk's stopping point down to the target
(`[i[i != -9999][::-1] for i in data.T]`). -/
def pathOf (pred : ℕ → Int) (fuel : ℕ) (t : ℕ) : List ℕ :=
  (t :: chainFull pred fuel t).reverse

/-- Predecessor chain with the hub cutoff of `get_source_cs_segment`: a
predecessor that is itself a hub is recorded and then masked with -9999, so
the walk stops one step after meeting the first hub ancestor. -/
def chainHub (pred : ℕ → Int) (hubs : List ℕ) : ℕ → ℕ → List ℕ
  | 0, _ => []
  | fuel + 1, cur =>
      if pred cur = -9999 then []
      else if (pred cur).toNat ∈ hubs then [(pred cur).toNat]
      else (pred cur).toNat :: chainHub pred hubs fuel (pred cur).toNat

/-- Hub-truncated path for one target, reversed like `pathOf`. -/
def hubStopPath (pred : ℕ → Int) (hubs : List ℕ) (fuel : ℕ) (t : ℕ) : List ℕ :=
  (t :: chainHub pred hubs fuel t).reverse

/-- `nx_chain_len`: how many nodes of the path are hubs (`np.isin` sum). -/
def countHubs (path : List ℕ) (hubs : List ℕ) : ℕ :=
  (path.filter (fun x => decide (x ∈ hubs))).length

/-- `get_source_cs_segment`: hub-truncated paths from every hub target with
id at least `source`, keeping only the paths whose walk stopped exactly at
`source` (`r[r.str[0] == source]`). -/
def sourceCsSegment (source : ℕ) (pred : ℕ → Int) (hubs : List ℕ) (fuel : ℕ) :
    List (List ℕ) :=
  ((hubs.filter (fun t => decide (source ≤ t))).map (hubStopPath pred hubs fuel)).filter
    (fun path => decide (path.head? = some source))

/-- One kept row of the hub-path extractor: the node path plus the source
and target columns set from the path's first and last node. -/
structure SegRow where
  path : List ℕ
  source : ℕ
  target : ℕ
deriving DecidableEq

/-- `get_all_cs_segment`: concatenate every hub's segments, keep the paths
whose hub-occurrence count is exactly 2, and read source/target off the
path ends. -/
def allCsSegment (hubs : List ℕ) (predF : ℕ → ℕ → Int) (fuel : ℕ) : List SegRow :=
  ((hubs.flatMap (fun j => sourceCsSegment j (predF j) hubs fuel)).filter
      (fun path => decide (countHubs path hubs = 2))).map
    (fun path => ⟨path, path.head?.getD 0, path.getLast?.getD 0⟩)

/-- One row of the flow distributor's per-source path table: full path from
`source` to `target`, as built by `source_cs_path`. -/
structure CsRow where
  path : List ℕ
  source : ℕ
  target : ℕ
deriving DecidableEq

/-- `source_cs_path`: full predecessor-walk paths from `source` to every hub
in the hub list, keeping rows with more than one hub occurrence on the path
(which discards the degenerate source row and unreachable targets). -/
def sourceCsPath (source : ℕ) (pred : ℕ → Int) (hubs : List ℕ) (fuel : ℕ) :
    List CsRow :=
  (hubs.map (fun t => CsRow.mk (pathOf pred fuel t) source t)).filter
    (fun row => decide (1 < countHubs row.path hubs))

/-- A per-edge (or per-OD-pair) year-value table: rows keyed by a node or
code pair, each row holding one rational per financial-year column, aligned
with a fixed column list. -/
abbrev Table := List ((ℕ × ℕ) × List ℤ)

/-- First row with the given key, as a pandas index lookup. -/
def lookupTable (t : Table) (k : ℕ × ℕ) : Option (List ℤ) :=
  (t.find? (fun e => decide (e.1 = k))).map Prod.snd

/-- Columnwise sum of two aligned year-value rows. -/
def vecAdd (a b : List ℤ) : List ℤ :=
  List.zipWith (· + ·) a b

/-- Columnwise sum of a bag of rows on top of the zero row. -/
def sumRows (z : List ℤ) (rows : List (List ℤ)) : List ℤ :=
  rows.foldr vecAdd z

/-- `groupby(level=[0,1]).sum()`: one row per distinct key, holding the
columnwise sum of all rows with that key. -/
def groupSum (z : List ℤ) (t : Table) : Table :=
  (dedupFirst (t.map Prod.fst)).map
    (fun k => (k, sumRows z ((t.filter (fun e => decide (e.1 = k))).map Prod.snd)))

/-- Consecutive node pairs along a path (`itertools.pairwise`). -/
def pairsOf : List ℕ → List (ℕ × ℕ)
  | [] => []
  | [_] => []
  | a :: b :: rest => (a, b) :: pairsOf (b :: rest)

/-- Canonical unordered pair key: smaller id first (`map(sorted)`). -/
def canonPair (p : ℕ × ℕ) : ℕ × ℕ :=
  (min p.1 p.2, max p.1 p.2)

/-- The computation half of `crs_model`: build the per-source path table,
key it by the endpoints' NLC codes, attach the OD flow row for that key
(zero row when the OD table has no such key), explode the path into
elemental edges, canonicalize each edge pair and sum per edge. -/
def crsCompute (source : ℕ) (pred : ℕ → Int) (hubs : List ℕ) (fuel : ℕ)
    (nlc : ℕ → ℕ) (jm : Table) (z : List ℤ) : Table :=
  let rows := sourceCsPath source pred hubs fuel
  let contribs := rows.flatMap (fun row =>
    let v := (lookupTable jm (nlc row.source, nlc row.target)).getD z
    (pairsOf row.path).map (fun e => (canonPair e, v)))
  groupSum z contribs

/-- Outcome of reading the persisted per-hub parquet: the two exception
types the script catches, and any other collaborator failure. -/
inductive ReadFail where
  | fileNotFound : ReadFail
  | arrowInvalid : ReadFail
  | otherFailure : ReadFail
deriving DecidableEq

/-- `crs_model` around its cache: a readable persisted result is returned
as is; a missing file or malformed parquet falls through to the
computation; any other failure propagates. -/
def crsModel (cache : Except ReadFail Table) (source : ℕ) (pred : ℕ → Int)
    (hubs : List ℕ) (fuel : ℕ) (nlc : ℕ → ℕ) (jm : Table) (z : List ℤ) :
    Except ReadFail Table :=
  match cache with
  | .ok t => .ok t
  | .error .fileNotFound => .ok (crsCompute source pred hubs fuel nlc jm z)
  | .error .arrowInvalid => .ok (crsCompute source pred hubs fuel nlc jm z)
  | .error .otherFailure => .error .otherFailure

/-- `pd.concat(r)` over all per-hub tables followed by
`groupby(level=[0,1]).sum()` in `main`. -/
def mergeHubFlows (z : List ℤ) (perHub : List Table) : Table :=
  groupSum z (perHub.flatMap id)

/-- Final merge of `main`: the edge-indexed journey table initialised to
zero rows, updated on the intersection of its index with the accumulated
flow keys (`journey.loc[ix, financial_year] = s`). -/
def finalJourney (edges : List (ℕ × ℕ)) (z : List ℤ) (s : Table) : Table :=
  edges.map (fun e => (e, (lookupTable s e).getD z))

/-- The 4-node path graph A-B-C-D of the concrete scenario, nodes 0..3,
unit edge lengths, canonical edge pairs. -/
def g4 : List Edge := [⟨0, 1, 1⟩, ⟨1, 2, 1⟩, ⟨2, 3, 1⟩]

/-- Hubs of the scenario: A (node 0) and D (node 3). -/
def hubs4 : List ℕ := [0, 3]

/-- Predecessor array of the single-source run from A on `g4`. -/
def predA : ℕ → Int := fun t => [(-9999 : Int), 0, 1, 2].getD t (-9999)

/-- Predecessor array of the single-source run from D on `g4`. -/
def predD : ℕ → Int := fun t => [(1 : Int), 2, 3, -9999].getD t (-9999)

/-- OD flow table of the scenario: one record A→D of value 10 for the one
financial-year column "2020" (NLC codes taken equal to node ids). -/
def jmAD : Table := [((0, 3), [10])]

/-- Zero row for the single year column "2020". -/
def zRow : List ℤ := [0]

/-- Per-hub flow tables of the scenario, one unit of work per hub. -/
def flowTables : List Table :=
  [crsCompute 0 predA hubs4 4 id jmAD zRow, crsCompute 3 predD hubs4 4 id jmAD zRow]

/-- Accumulated flow over all hubs of the scenario. -/
def sFlows : Table := mergeHubFlows zRow flowTables

/-- Edge-pair index of the journey table for `g4`. -/
def journey4 : List (ℕ × ℕ) := [(0, 1), (1, 2), (2, 3)]

/-- Final per-edge flow table of the scenario. -/
def final4 : Table := finalJourney journey4 zRow sFlows

/-- Two-component graph of the unreachable-pair scenario: nodes 0-1 joined,
nodes 2-3 joined, no edge between the components. -/
def g2c : List Edge := [⟨0, 1, 1⟩, ⟨2, 3, 1⟩]

/-- Hubs of the two-component scenario: node 0 and node 2. -/
def hubs2c : List ℕ := [0, 2]

/-- Predecessor array of the single-source run from node 0 on `g2c`:
sentinel at the source and at both unreachable nodes. -/
def predC : ℕ → Int := fun t => [(-9999 : Int), 0, -9999, -9999].getD t (-9999)

/-- Five-node path graph with three hubs, for the hub-path extractor. -/
def g5 : List Edge := [⟨0, 1, 1⟩, ⟨1, 2, 1⟩, ⟨2, 3, 1⟩, ⟨3, 4, 1⟩]

/-- Hubs of the five-node scenario: nodes 0, 2 and 4. -/
def hubs5 : List ℕ := [0, 2, 4]

/-- Predecessor arrays of the single-source runs from each hub of `g5`. -/
def predF5 : ℕ → ℕ → Int := fun j t =>
  (if j = 0 then [(-9999 : Int), 0, 1, 2, 3]
   else if j = 2 then [(1 : Int), 2, -9999, 2, 3]
   else if j = 4 then [(1 : Int), 2, 3, 4, -9999]
   else []).getD t (-9999)

/-- A single closed line: both endpoints at the origin. -/
def ringLine : Line := ⟨(0, 0), [(1, 0), (1, 1)], (0, 0)⟩

/-- A one-edge list for the asymmetry counterexample. -/
def e5 : List Edge := [⟨0, 1, 5⟩]

/-- All ordered node-id pairs below a bound, for bounded frame checks. -/
def allNodePairs (n : ℕ) : List (ℕ × ℕ) :=
  (List.range n).flatMap (fun a => (List.range n).map (fun b => (a, b)))

/-- A single open line from the origin to (1, 0). -/
def lineAB : Line := ⟨(0, 0), [], (1, 0)⟩

/-- Prefix of a node list up to and including its first hub: the effect of
the hub-masking step of `get_source_cs_segment` on a fully walked chain. -/
def takeToHub (hubs : List ℕ) : List ℕ → List ℕ
  | [] => []
  | x :: xs => if x ∈ hubs then [x] else x :: takeToHub hubs xs

theorem mem_dedupFirst {α : Type} [DecidableEq α] {a : α} {l : List α} :
    a ∈ dedupFirst l ↔ a ∈ l := by
  simp [dedupFirst]

theorem nodup_dedupFirst {α : Type} [DecidableEq α] (l : List α) :
    (dedupFirst l).Nodup := by
  simpa [dedupFirst] using (List.nodup_dedup l.reverse)

theorem sqDist_nonneg (p q : Coord) : 0 ≤ sqDist p q := by
  unfold sqDist
  positivity

theorem sqDist_self (p : Coord) : sqDist p p = 0 := by
  simp [sqDist]

theorem eq_of_sqDist_eq_zero {p q : Coord} (h : sqDist p q = 0) : p = q := by
  unfold sqDist at h
  have h1 := sq_nonneg (p.1 - q.1)
  have h2 := sq_nonneg (p.2 - q.2)
  have e1 : (p.1 - q.1) ^ 2 = 0 := by linarith
  have e2 : (p.2 - q.2) ^ 2 = 0 := by linarith
  have f1 : p.1 = q.1 := by
    have := pow_eq_zero_iff (two_ne_zero) |>.mp e1
    have := sub_eq_zero.mp this
    exact this
  have f2 : p.2 = q.2 := by
    have := pow_eq_zero_iff (two_ne_zero) |>.mp e2
    have := sub_eq_zero.mp this
    exact this
  exact Prod.ext f1 f2

theorem nearestFrom_spec (p : Coord) : ∀ (cs : List Coord) (i : ℕ) (b : ℕ × ℤ),
    (nearestFrom p cs i b = b ∨
      ∃ k c, cs.get? k = some c ∧ nearestFrom p cs i b = (i + k, sqDist p c)) ∧
    (nearestFrom p cs i b).2 ≤ b.2 ∧
    ∀ c ∈ cs, (nearestFrom p cs i b).2 ≤ sqDist p c := by
  intro cs
  induction cs with
  | nil =>
      intro i b
      refine ⟨Or.inl rfl, le_refl _, ?_⟩
      intro c hc
      cases hc
  | cons c cs ih =>
      intro i b
      by_cases hlt : sqDist p c < b.2
      · have hstep : nearestFrom p (c :: cs) i b =
            nearestFrom p cs (i + 1) (i, sqDist p c) := by
          simp [nearestFrom, hlt]
        obtain ⟨hcases, hle, hall⟩ := ih (i + 1) (i, sqDist p c)
        rw [hstep]
        refine ⟨?_, ?_, ?_⟩
        · rcases hcases with h | ⟨k, c', hk, hr⟩
          · right
            exact ⟨0, c, rfl, by rw [h]; simp⟩
          · right
            refine ⟨k + 1, c', by simpa using hk, ?_⟩
            rw [hr]
            congr 1
            omega
        · exact le_trans hle (le_of_lt hlt)
        · intro c' hc'
          rcases List.mem_cons.mp hc' with rfl | hc'
          · exact hle
          · exact hall _ hc'
      · have hstep : nearestFrom p (c :: cs) i b = nearestFrom p cs (i + 1) b := by
          simp [nearestFrom, hlt]
        obtain ⟨hcases, hle, hall⟩ := ih (i + 1) b
        rw [hstep]
        refine ⟨?_, hle, ?_⟩
        · rcases hcases with h | ⟨k, c', hk, hr⟩
          · exact Or.inl h
          · right
            refine ⟨k + 1, c', by simpa using hk, ?_⟩
            rw [hr]
            congr 1
            omega
        · intro c' hc'
          rcases List.mem_cons.mp hc' with rfl | hc'
          · exact le_trans hle (not_lt.mp hlt)
          · exact hall _ hc'

theorem nearestNode_spec (nodes : List Coord) (p : Coord) (h : nodes ≠ []) :
    ∃ i c, nearestNode nodes p = some i ∧ nodes.get? i = some c ∧
      ∀ c' ∈ nodes, sqDist p c ≤ sqDist p c' := by
  match nodes with
  | [] => exact absurd rfl h
  | c :: cs =>
      obtain ⟨hcases, hle, hall⟩ := nearestFrom_spec p cs 1 (0, sqDist p c)
      rcases hcases with heq | ⟨k, c', hk, hr⟩
      · refine ⟨0, c, ?_, rfl, ?_⟩
        · simp [nearestNode, heq]
        · intro x hx
          rcases List.mem_cons.mp hx with rfl | hx
          · exact le_refl _
          · have := hall _ hx
            rw [heq] at this
            exact this
      · refine ⟨1 + k, c', ?_, ?_, ?_⟩
        · simp [nearestNode, hr]
        · simpa [Nat.add_comm 1 k] using hk
        · intro x hx
          have hval : (nearestFrom p cs 1 (0, sqDist p c)).2 = sqDist p c' := by
            rw [hr]
          rcases List.mem_cons.mp hx with rfl | hx
          · rw [← hval]; exact hle
          · rw [← hval]; exact hall _ hx

theorem nearestNode_exact (nodes : List Coord) (p : Coord) (hp : p ∈ nodes) :
    ∃ i, nearestNode nodes p = some i ∧ nodes.get? i = some p := by
  have hne : nodes ≠ [] := by
    intro h
    rw [h] at hp
    cases hp
  obtain ⟨i, c, hr, hg, hmin⟩ := nearestNode_spec nodes p hne
  have hle : sqDist p c ≤ 0 := by
    have := hmin p hp
    simpa [sqDist_self] using this
  have hc : c = p := (eq_of_sqDist_eq_zero (le_antisymm hle (sqDist_nonneg p c))).symm
  exact ⟨i, hr, hc ▸ hg⟩

theorem nodeIdOf_exact (lines : List Line) (p : Coord) (hp : p ∈ allEndpoints lines) :
    ∃ i : ℕ, nodeIdOf (nodesOf lines) p = (i : Int) ∧ (nodesOf lines).get? i = some p := by
  have hp' : p ∈ nodesOf lines := mem_dedupFirst.mpr hp
  obtain ⟨i, hr, hg⟩ := nearestNode_exact (nodesOf lines) p hp'
  exact ⟨i, by simp [nodeIdOf, hr], hg⟩

theorem optMin_comm (a b : Option ℤ) : optMin a b = optMin b a := by
  cases a <;> cases b <;> simp [optMin, min_comm]

theorem optAdd_comm (a b : Option ℤ) : optAdd a b = optAdd b a := by
  cases a <;> cases b <;> simp [optAdd, add_comm]

theorem symWt_comm (edges : List Edge) (i j : ℕ) :
    symWt edges i j = symWt edges j i := by
  unfold symWt
  exact optMin_comm _ _

theorem fwIter_symm (edges : List Edge) :
    ∀ k i j, fwIter edges k i j = fwIter edges k j i := by
  intro k
  induction k with
  | zero =>
      intro i j
      show fwInit edges i j = fwInit edges j i
      unfold fwInit
      by_cases h : i = j
      · subst h
        simp
      · simp [h, Ne.symm h, symWt_comm]
  | succ n ih =>
      intro i j
      show optMin (fwIter edges n i j) (optAdd (fwIter edges n i n) (fwIter edges n n j)) =
        optMin (fwIter edges n j i) (optAdd (fwIter edges n j n) (fwIter edges n n i))
      rw [ih i j, ih i n, ih n j, optAdd_comm]

theorem mem_le_foldr_max : ∀ (l : List ℕ) (x : ℕ), x ∈ l → x ≤ l.foldr max 0 := by
  intro l
  induction l with
  | nil =>
      intro x hx
      cases hx
  | cons a t ih =>
      intro x hx
      rcases List.mem_cons.mp hx with rfl | hx
      · exact le_max_left _ _
      · exact le_trans (ih x hx) (le_max_right _ _)

/-- C1: in the Flow Distributor, for the 4-node path graph A-B-C-D (nodes
0..3) with unit edge weights, hubs {A, D} and one OD record A→D of value 10
for the single year column "2020", the final per-edge flow table assigns
exactly 10 to each canonical edge (0,1), (1,2), (2,3), and the accumulated
flow is absent (hence zero) on every other node pair of the graph; the two
predecessor arrays driving the units of work are certified shortest-path
trees of the model graph. -/
theorem c1_flow_copied_on_unique_path :
    predOk g4 0 predA 4 = true ∧ predOk g4 3 predD 4 = true ∧
    final4 = [((0, 1), [10]), ((1, 2), [10]), ((2, 3), [10])] ∧
    ((allNodePairs 4).filter (fun p => decide (p ∉ journey4))).all
      (fun p => decide (lookupTable sFlows p = none)) = true := by
  decide

/-- C3 counterexample: a closed input line with both endpoints at the
origin produces the single edge (0, 0): source equals target, so the
claimed invariants source < target and source ≠ target fail, and a
self-loop edge is produced. -/
theorem c3_self_loop_cex :
    edgesOf [ringLine] = [((0 : Int), (0 : Int))] ∧
    ¬(∀ e ∈ edgesOf [ringLine], e.1 ≠ e.2) := by
  decide

/-- C3 amended: every extracted edge satisfies source ≤ target (the pair is
sorted); after deduplication the pair list has no duplicates, so there is at
most one edge per unordered node pair; and every line whose two endpoint
coordinates differ yields a strict source < target.  A line with coincident
endpoints yields source = target (see the counterexample), which nothing
filters out. -/
theorem c3_edges_sorted_dedup (lines : List Line) :
    (∀ e ∈ edgesOf lines, e.1 ≤ e.2) ∧
    (edgesOf lines).Nodup ∧
    (∀ l ∈ lines, l.first ≠ l.last →
      (rawEdge (nodesOf lines) l).1 < (rawEdge (nodesOf lines) l).2) := by
  refine ⟨?_, nodup_dedupFirst _, ?_⟩
  · intro e he
    have he' := mem_dedupFirst.mp he
    obtain ⟨l, _, rfl⟩ := List.mem_map.mp he'
    exact min_le_max
  · intro l hl hne
    have hf : l.first ∈ allEndpoints lines := by
      unfold allEndpoints
      exact List.mem_flatMap.mpr ⟨l, hl, by simp⟩
    have hlast : l.last ∈ allEndpoints lines := by
      unfold allEndpoints
      exact List.mem_flatMap.mpr ⟨l, hl, by simp⟩
    obtain ⟨i, hi, hgi⟩ := nodeIdOf_exact lines l.first hf
    obtain ⟨j, hj, hgj⟩ := nodeIdOf_exact lines l.last hlast
    have hij : i ≠ j := by
      intro h
      subst h
      rw [hgi] at hgj
      injection hgj with h2
      exact hne h2
    unfold rawEdge
    rw [hi, hj]
    exact min_lt_max.mpr (by exact_mod_cast hij)

theorem c3_witness :
    (((0 : Int), (1 : Int)).1 ≤ ((0 : Int), (1 : Int)).2) ∧
    (rawEdge (nodesOf [lineAB]) lineAB).1 < (rawEdge (nodesOf [lineAB]) lineAB).2 :=
  ⟨(c3_edges_sorted_dedup [lineAB]).1 (0, 1) (by decide),
   (c3_edges_sorted_dedup [lineAB]).2.2 lineAB (by decide) (by decide)⟩

/-- C4 counterexample: a query point at squared distance 20000 from the only
node — far outside any snapping tolerance — is still bound to that node by
the nearest query; no error is signalled and nothing is dropped, refuting
the claim that an endpoint matching no node under tolerance makes the
extraction fail. -/
theorem c4_silent_nearest_cex :
    sqDist (100, 100) (0, 0) = 20000 ∧
    nearestNode [((0 : ℤ), (0 : ℤ))] (100, 100) = some 0 := by
  decide

/-- C4 amended: the endpoint-to-node binding is total and tolerance-free —
whenever at least one node exists, the nearest query returns a node index
unconditionally (there is no failure path in `get_source_target`); and in
the extractor the question never arises, because nodes are exactly the
deduplicated endpoints, so every endpoint is bound to a node whose
coordinates equal it exactly. -/
theorem c4_binding_total_and_exact :
    (∀ (nodes : List Coord) (p : Coord), nodes ≠ [] → (nearestNode nodes p).isSome = true) ∧
    (∀ (lines : List Line) (p : Coord), p ∈ allEndpoints lines →
      ∃ i : ℕ, nodeIdOf (nodesOf lines) p = (i : Int) ∧ (nodesOf lines).get? i = some p) := by
  constructor
  · intro nodes p h
    match nodes with
    | [] => exact absurd rfl h
    | c :: cs => rfl
  · exact fun lines p hp => nodeIdOf_exact lines p hp

theorem c4_witness :
    (nearestNode [((0 : ℤ), (0 : ℤ))] (100, 100)).isSome = true ∧
    ∃ i : ℕ, nodeIdOf (nodesOf [lineAB]) (0, 0) = (i : Int) ∧
      (nodesOf [lineAB]).get? i = some (0, 0) :=
  ⟨c4_binding_total_and_exact.1 [(0, 0)] (100, 100) (by decide),
   c4_binding_total_and_exact.2 [lineAB] (0, 0) (by decide)⟩

/-- C5 counterexample: for the single canonical edge (0, 1) of length 5 the
sparse array stores 5 at position (0, 1) but 0 at position (1, 0), although
the edge {0, 1} exists — the stored matrix is not symmetric and the
transpose entry is not the edge's length, refuting the claimed symmetry. -/
theorem c5_csr_asymmetric_cex :
    csrEntry e5 0 1 = 5 ∧ csrEntry e5 1 0 = 0 ∧
    ¬csrEntry e5 0 1 = csrEntry e5 1 0 := by
  decide

/-- C5 amended: the array built by `get_csr_array` stores only the canonical
(source, target) orientation: with canonically ordered edges the strict
lower triangle is zero, non-stored positions are zero, every stored entry
lies inside the (max id + 1)-sized square, and the symmetry the claim
ascribes to the matrix in fact arises at query time — the directed=False
effective weight is symmetric. -/
theorem c5_csr_stores_one_orientation (edges : List Edge)
    (hc : ∀ e ∈ edges, e.source ≤ e.target) :
    (∀ a b, b < a → csrEntry edges a b = 0) ∧
    (∀ i j, csrHas edges i j = false → csrEntry edges i j = 0) ∧
    (∀ i j, imaxOf edges ≤ i → csrEntry edges i j = 0) ∧
    (∀ i j, symWt edges i j = symWt edges j i) := by
  refine ⟨?_, ?_, ?_, fun i j => symWt_comm edges i j⟩
  · intro a b hba
    unfold csrEntry
    have hnil : edges.filter (fun e => decide (e.source = a ∧ e.target = b)) = [] := by
      rw [List.filter_eq_nil_iff]
      intro e he
      simp only [decide_eq_true_eq]
      rintro ⟨hs, ht⟩
      have := hc e he
      omega
    rw [hnil]
    rfl
  · intro i j hno
    unfold csrEntry
    have hnil : edges.filter (fun e => decide (e.source = i ∧ e.target = j)) = [] := by
      rw [List.filter_eq_nil_iff]
      intro e he hp
      have hhas : csrHas edges i j = true := by
        unfold csrHas
        rw [List.any_eq_true]
        exact ⟨e, he, hp⟩
      rw [hno] at hhas
      cases hhas
    rw [hnil]
    rfl
  · intro i j hi
    unfold csrEntry
    have hnil : edges.filter (fun e => decide (e.source = i ∧ e.target = j)) = [] := by
      rw [List.filter_eq_nil_iff]
      intro e he
      simp only [decide_eq_true_eq]
      rintro ⟨hs, ht⟩
      have h1 : max e.source e.target ≤ (edges.map (fun e => max e.source e.target)).foldr max 0 :=
        mem_le_foldr_max _ _ (List.mem_map_of_mem _ he)
      have h2 : e.source ≤ max e.source e.target := le_max_left _ _
      unfold imaxOf at hi
      omega
    rw [hnil]
    rfl

theorem c5_witness :
    csrEntry e5 1 0 = 0 ∧ symWt e5 0 1 = symWt e5 1 0 :=
  ⟨(c5_csr_stores_one_orientation e5 (by decide)).1 1 0 (by decide),
   (c5_csr_stores_one_orientation e5 (by decide)).2.2.2 0 1⟩

/-- C6: the engine's shortest-path distance on the undirected reading of
the built graph is symmetric: for nodes reachable from each other (finite
distance) the distance from a to b equals the distance from b to a.  (The
proof shows symmetry for all pairs; the reachability hypothesis mirrors
the claim.) -/
theorem c6_dist_symmetric (edges : List Edge) (a b : ℕ)
    (_h : dist edges a b ≠ none) :
    dist edges a b = dist edges b a := by
  unfold dist
  exact fwIter_symm edges (imaxOf edges) a b

theorem c6_witness : dist g4 0 3 ≠ none ∧ dist g4 0 3 = dist g4 3 0 :=
  ⟨by decide, c6_dist_symmetric g4 0 3 (by decide)⟩

/-- C8: for a hub's unit of work, a readable persisted per-hub result is
returned as is with no recomputation; a missing file or a malformed parquet
is recomputed from the graph and OD table; and under the same inputs the
recomputed result is value-identical to a cache persisted from those inputs
(the computation is a pure function of them).  Any other collaborator
failure propagates. -/
theorem c8_cache_reuse_or_recompute (source : ℕ) (pred : ℕ → Int)
    (hubs : List ℕ) (fuel : ℕ) (nlc : ℕ → ℕ) (jm : Table) (z : List ℤ) :
    (∀ t : Table, crsModel (.ok t) source pred hubs fuel nlc jm z = .ok t) ∧
    crsModel (.error .fileNotFound) source pred hubs fuel nlc jm z =
      .ok (crsCompute source pred hubs fuel nlc jm z) ∧
    crsModel (.error .arrowInvalid) source pred hubs fuel nlc jm z =
      .ok (crsCompute source pred hubs fuel nlc jm z) ∧
    crsModel (.ok (crsCompute source pred hubs fuel nlc jm z)) source pred hubs fuel nlc jm z =
      crsModel (.error .fileNotFound) source pred hubs fuel nlc jm z :=
  ⟨fun _ => rfl, rfl, rfl, rfl⟩

theorem lookupTable_cons (x : (ℕ × ℕ) × List ℤ) (t : Table) (k : ℕ × ℕ) :
    lookupTable (x :: t) k = if x.1 = k then some x.2 else lookupTable t k := by
  unfold lookupTable
  by_cases h : x.1 = k
  · rw [List.find?_cons_of_pos _ (by simp [h])]
    simp [h]
  · rw [List.find?_cons_of_neg _ (by simp [h])]
    simp [h]

theorem lookup_finalJourney (edges : List (ℕ × ℕ)) (z : List ℤ) (s : Table)
    (k : ℕ × ℕ) :
    lookupTable (finalJourney edges z s) k =
      if k ∈ edges then some ((lookupTable s k).getD z) else none := by
  induction edges with
  | nil =>
      simp [finalJourney, lookupTable, List.find?]
  | cons a rest ih =>
      simp only [finalJourney, List.map_cons] at ih ⊢
      rw [lookupTable_cons]
      by_cases hk : a = k
      · subst hk
        simp
      · rw [if_neg hk, ih]
        by_cases hm : k ∈ rest
        · have hmem : k ∈ a :: rest := List.mem_cons_of_mem _ hm
          simp [hm, hmem]
        · have hmem : ¬(k ∈ a :: rest) := by
            intro hc
            rcases List.mem_cons.mp hc with h | h
            · exact hk h.symm
            · exact hm h
          simp [hm, hmem]

/-- C10: the final merge writes accumulated flow only onto canonical pairs
that are rows of the simplified edge table: the merged table's keys are
exactly the edge pairs; a flow key absent from the edge table produces no
row (it is silently discarded by the index intersection); an edge with no
accumulated flow keeps its initialised zero row; and an edge with
accumulated flow receives exactly that row. -/
theorem c10_final_merge_frame (edges : List (ℕ × ℕ)) (z : List ℤ) (s : Table) :
    ((finalJourney edges z s).map Prod.fst = edges) ∧
    (∀ p, p ∉ edges → lookupTable (finalJourney edges z s) p = none) ∧
    (∀ e ∈ edges, lookupTable s e = none →
      lookupTable (finalJourney edges z s) e = some z) ∧
    (∀ e ∈ edges, ∀ v, lookupTable s e = some v →
      lookupTable (finalJourney edges z s) e = some v) := by
  refine ⟨?_, ?_, ?_, ?_⟩
  · simp [finalJourney, Function.comp_def]
  · intro p hp
    rw [lookup_finalJourney]
    simp [hp]
  · intro e he hnone
    rw [lookup_finalJourney]
    simp [he, hnone]
  · intro e he v hv
    rw [lookup_finalJourney]
    simp [he, hv]

theorem c10_witness :
    lookupTable (finalJourney [(0, 1)] [0] [((2, 3), [5])]) (2, 3) = none ∧
    lookupTable (finalJourney [(0, 1)] [0] [((2, 3), [5])]) (0, 1) = some [0] :=
  ⟨(c10_final_merge_frame [(0, 1)] [0] [((2, 3), [5])]).2.1 (2, 3) (by decide),
   (c10_final_merge_frame [(0, 1)] [0] [((2, 3), [5])]).2.2.1 (0, 1) (by decide) (by decide)⟩

theorem chainFull_sentinel (pred : ℕ → Int) (t : ℕ) (h : pred t = -9999) :
    ∀ fuel, chainFull pred fuel t = [] := by
  intro fuel
  cases fuel with
  | zero => rfl
  | succ n => simp [chainFull, h]

theorem countHubs_singleton (t : ℕ) (hubs : List ℕ) : countHubs [t] hubs ≤ 1 := by
  by_cases h : t ∈ hubs <;> simp [countHubs, h]

theorem predOk_sentinel (edges : List Edge) (source : ℕ) (pred : ℕ → Int)
    (n t : ℕ) (hp : predOk edges source pred n = true) (ht : t < n)
    (hts : t ≠ source) (hd : dist edges source t = none) : pred t = -9999 := by
  unfold predOk at hp
  rw [Bool.and_eq_true] at hp
  have h2 := List.all_eq_true.mp hp.2 t (List.mem_range.mpr ht)
  rw [if_neg hts] at h2
  rw [hd] at h2
  exact of_decide_eq_true h2

/-- C7: when the shortest-path distance from a hub to a target is infinite
(the pair lies in different connected components), the certified predecessor
array holds the sentinel there, so the reconstructed chain degenerates to
the single-node path [t]; consequently the flow distributor's path table
contains no row for that target — no flow is attributed for the pair — and
every operation involved is total, so the unit of work completes without
error. -/
theorem c7_unreachable_pair (edges : List Edge) (hubs : List ℕ) (source t : ℕ)
    (pred : ℕ → Int) (n fuel : ℕ)
    (hp : predOk edges source pred n = true) (ht : t < n) (hts : t ≠ source)
    (hd : dist edges source t = none) :
    pathOf pred fuel t = [t] ∧
    ∀ row ∈ sourceCsPath source pred hubs fuel, row.target ≠ t := by
  have hs : pred t = -9999 := predOk_sentinel edges source pred n t hp ht hts hd
  have hpath : pathOf pred fuel t = [t] := by
    unfold pathOf
    rw [chainFull_sentinel pred t hs fuel]
    rfl
  refine ⟨hpath, ?_⟩
  intro row hrow hteq
  unfold sourceCsPath at hrow
  rw [List.mem_filter] at hrow
  obtain ⟨hmem, hcond⟩ := hrow
  obtain ⟨u, hu, heq⟩ := List.mem_map.mp hmem
  have hpathrow : row.path = pathOf pred fuel u := by rw [← heq]
  have htgtrow : row.target = u := by rw [← heq]
  have hut : u = t := by rw [← htgtrow]; exact hteq
  subst hut
  have hc2 : 1 < countHubs row.path hubs := of_decide_eq_true hcond
  rw [hpathrow, hpath] at hc2
  have := countHubs_singleton u hubs
  omega

theorem c7_witness :
    (predOk g2c 0 predC 4 = true ∧ dist g2c 0 2 = none) ∧
    pathOf predC 4 2 = [2] ∧
    ∀ row ∈ sourceCsPath 0 predC hubs2c 4, row.target ≠ 2 :=
  ⟨⟨by decide, by decide⟩,
   c7_unreachable_pair g2c hubs2c 0 2 predC 4 4 (by decide) (by decide)
     (by decide) (by decide)⟩

theorem chainHub_eq_takeToHub (pred : ℕ → Int) (hubs : List ℕ) :
    ∀ (fuel cur : ℕ),
      chainHub pred hubs fuel cur = takeToHub hubs (chainFull pred fuel cur) := by
  intro fuel
  induction fuel with
  | zero =>
      intro cur
      rfl
  | succ n ih =>
      intro cur
      by_cases h : pred cur = -9999
      · simp [chainHub, chainFull, h, takeToHub]
      · by_cases hh : (pred cur).toNat ∈ hubs
        · simp [chainHub, chainFull, h, hh, takeToHub]
        · simp [chainHub, chainFull, h, hh, takeToHub, ih]

theorem takeToHub_append (hubs : List ℕ) :
    ∀ (l l' : List ℕ), (∃ x ∈ l, x ∈ hubs) →
      takeToHub hubs (l ++ l') = takeToHub hubs l := by
  intro l
  induction l with
  | nil =>
      rintro l' ⟨x, hx, _⟩
      cases hx
  | cons a xs ih =>
      rintro l' ⟨x, hx, hxh⟩
      by_cases ha : a ∈ hubs
      · simp [takeToHub, ha]
      · rcases List.mem_cons.mp hx with rfl | hx2
        · exact absurd hxh ha
        · simp [takeToHub, ha, ih l' ⟨x, hx2, hxh⟩]

theorem takeToHub_getLast (hubs : List ℕ) :
    ∀ (l : List ℕ), (∃ x ∈ l, x ∈ hubs) →
      ∃ h, (takeToHub hubs l).getLast? = some h ∧ h ∈ l ∧ h ∈ hubs := by
  intro l
  induction l with
  | nil =>
      rintro ⟨x, hx, _⟩
      cases hx
  | cons a xs ih =>
      rintro ⟨x, hx, hxh⟩
      by_cases ha : a ∈ hubs
      · refine ⟨a, ?_, List.mem_cons_self a xs, ha⟩
        simp [takeToHub, ha]
      · rcases List.mem_cons.mp hx with rfl | hx2
        · exact absurd hxh ha
        · obtain ⟨h, hl, hmem, hhub⟩ := ih ⟨x, hx2, hxh⟩
          refine ⟨h, ?_, List.mem_cons_of_mem a hmem, hhub⟩
          have hrw : takeToHub hubs (a :: xs) = a :: takeToHub hubs xs := by
            simp [takeToHub, ha]
          rw [hrw]
          cases htt : takeToHub hubs xs with
          | nil =>
              rw [htt] at hl
              cases hl
          | cons b bs =>
              rw [htt] at hl
              rw [List.getLast?_cons_cons]
              exact hl

theorem hubStopPath_last (pred : ℕ → Int) (hubs : List ℕ) (fuel t : ℕ) :
    (hubStopPath pred hubs fuel t).getLast? = some t := by
  unfold hubStopPath
  rw [List.getLast?_reverse]
  rfl

theorem hubStopPath_head (pred : ℕ → Int) (hubs : List ℕ) (fuel t : ℕ) :
    (hubStopPath pred hubs fuel t).head? =
      (t :: chainHub pred hubs fuel t).getLast? := by
  unfold hubStopPath
  rw [List.head?_reverse]

theorem mem_sourceCsSegment {source : ℕ} {pred : ℕ → Int} {hubs : List ℕ}
    {fuel : ℕ} {p : List ℕ} (hp : p ∈ sourceCsSegment source pred hubs fuel) :
    ∃ t ∈ hubs, source ≤ t ∧ p = hubStopPath pred hubs fuel t ∧
      p.head? = some source := by
  unfold sourceCsSegment at hp
  rw [List.mem_filter] at hp
  obtain ⟨hmem, hcond⟩ := hp
  obtain ⟨t, ht, heq⟩ := List.mem_map.mp hmem
  rw [List.mem_filter] at ht
  exact ⟨t, ht.1, of_decide_eq_true ht.2, heq.symm, of_decide_eq_true hcond⟩

theorem mem_allCsSegment {hubs : List ℕ} {predF : ℕ → ℕ → Int} {fuel : ℕ}
    {row : SegRow} (hr : row ∈ allCsSegment hubs predF fuel) :
    ∃ j ∈ hubs, ∃ p, p ∈ sourceCsSegment j (predF j) hubs fuel ∧
      countHubs p hubs = 2 ∧ row = ⟨p, p.head?.getD 0, p.getLast?.getD 0⟩ := by
  unfold allCsSegment at hr
  obtain ⟨p, hp, heq⟩ := List.mem_map.mp hr
  rw [List.mem_filter] at hp
  obtain ⟨hmem, hcount⟩ := hp
  obtain ⟨j, hj, hpj⟩ := List.mem_flatMap.mp hmem
  exact ⟨j, hj, p, hpj, of_decide_eq_true hcount, heq.symm⟩

theorem allCsSegment_row_spec {hubs : List ℕ} {predF : ℕ → ℕ → Int} {fuel : ℕ}
    {row : SegRow} (hr : row ∈ allCsSegment hubs predF fuel) :
    row.source ∈ hubs ∧ row.target ∈ hubs ∧
    row.path = hubStopPath (predF row.source) hubs fuel row.target ∧
    row.path.head? = some row.source ∧ row.path.getLast? = some row.target ∧
    countHubs row.path hubs = 2 := by
  obtain ⟨j, hj, p, hp, hcount, heq⟩ := mem_allCsSegment hr
  obtain ⟨t, ht, _, hpeq, hhead⟩ := mem_sourceCsSegment hp
  have hlast : p.getLast? = some t := by
    rw [hpeq]
    exact hubStopPath_last (predF j) hubs fuel t
  have hpath : row.path = p := by rw [heq]
  have hsrc : row.source = j := by
    rw [heq]
    show p.head?.getD 0 = j
    rw [hhead]
    rfl
  have htgt : row.target = t := by
    rw [heq]
    show p.getLast?.getD 0 = t
    rw [hlast]
    rfl
  refine ⟨hsrc ▸ hj, htgt ▸ ht, ?_, ?_, ?_, ?_⟩
  · rw [hpath, hsrc, htgt, hpeq]
  · rw [hpath, hhead, hsrc]
  · rw [hpath, hlast, htgt]
  · rw [hpath]
    exact hcount

theorem countHubs_append (l l' : List ℕ) (hubs : List ℕ) :
    countHubs (l ++ l') hubs = countHubs l hubs + countHubs l' hubs := by
  simp [countHubs, List.filter_append]

theorem countHubs_cons (a : ℕ) (l : List ℕ) (hubs : List ℕ) :
    countHubs (a :: l) hubs = (if a ∈ hubs then 1 else 0) + countHubs l hubs := by
  by_cases h : a ∈ hubs
  · simp [countHubs, List.filter_cons, h]
    omega
  · simp [countHubs, List.filter_cons, h]

theorem countHubs_mid_zero {a b : ℕ} {mid hubs : List ℕ} (ha : a ∈ hubs)
    (hb : b ∈ hubs) (h : countHubs (a :: (mid ++ [b])) hubs = 2) :
    ∀ x ∈ mid, x ∉ hubs := by
  rw [countHubs_cons, countHubs_append] at h
  have hb1 : countHubs [b] hubs = 1 := by simp [countHubs, hb]
  rw [hb1, if_pos ha] at h
  have h0 : countHubs mid hubs = 0 := by omega
  intro x hx hxh
  have hmemf : x ∈ mid.filter (fun y => decide (y ∈ hubs)) :=
    List.mem_filter.mpr ⟨hx, by simp [hxh]⟩
  have hneq : mid.filter (fun y => decide (y ∈ hubs)) ≠ [] :=
    List.ne_nil_of_mem hmemf
  unfold countHubs at h0
  exact hneq (List.length_eq_zero.mp h0)

theorem path_decomp (p : List ℕ) (a b : ℕ) (ha : p.head? = some a)
    (hb : p.getLast? = some b) (h2 : 2 ≤ p.length) :
    ∃ mid, p = a :: (mid ++ [b]) := by
  match p, h2 with
  | x :: y :: rest, _ =>
      have hx : x = a := by
        injection ha
      subst hx
      have hne : (y :: rest) ≠ [] := by simp
      rw [List.getLast?_cons_cons] at hb
      have hdec := List.dropLast_append_getLast hne
      have hlast : (y :: rest).getLast hne = b := by
        have hgl := List.getLast?_eq_getLast (y :: rest) hne
        rw [hgl] at hb
        injection hb
      refine ⟨(y :: rest).dropLast, ?_⟩
      rw [hlast] at hdec
      rw [hdec]

/-- C2: in the hub-path extractor, every kept path contains exactly 2 hub
occurrences, starts at a hub (its source), ends at a hub (its target), and
carries no hub strictly between its endpoints; and a hub pair j, k (with
k ≥ j) whose full shortest path from j to k passes through another hub
strictly between the endpoints yields no output row at all, because the
hub-masked walk stops at that intermediate hub and the path is discarded by
the head filter. -/
theorem c2_kept_paths_exactly_two_hubs (hubs : List ℕ) (predF : ℕ → ℕ → Int)
    (fuel : ℕ) :
    (∀ row ∈ allCsSegment hubs predF fuel,
      countHubs row.path hubs = 2 ∧
      row.path.head? = some row.source ∧ row.source ∈ hubs ∧
      row.path.getLast? = some row.target ∧ row.target ∈ hubs ∧
      ∃ mid, row.path = row.source :: (mid ++ [row.target]) ∧
        ∀ x ∈ mid, x ∉ hubs) ∧
    (∀ j k mid, j ∈ hubs → k ∈ hubs → j ∉ mid →
      pathOf (predF j) fuel k = j :: (mid ++ [k]) →
      (∃ x ∈ mid, x ∈ hubs) →
      ∀ row ∈ allCsSegment hubs predF fuel,
        ¬(row.source = j ∧ row.target = k)) := by
  constructor
  · intro row hr
    obtain ⟨hsh, hth, hpe, hhead, hlast, hcount⟩ := allCsSegment_row_spec hr
    have h2 : 2 ≤ row.path.length := by
      match hlp : row.path with
      | [] =>
          rw [hlp] at hhead
          cases hhead
      | [x] =>
          rw [hlp] at hhead hlast hcount
          have hxs : x = row.source := by injection hhead
          have hxt : x = row.target := by injection hlast
          rw [hxs] at hcount
          have hle := countHubs_singleton row.source hubs
          omega
      | x :: y :: rest =>
          simp only [List.length_cons]
          omega
    obtain ⟨mid, hmid⟩ := path_decomp row.path row.source row.target hhead hlast h2
    refine ⟨hcount, hhead, hsh, hlast, hth, mid, hmid, ?_⟩
    rw [hmid] at hcount
    exact countHubs_mid_zero hsh hth hcount
  · intro j k mid hj hk hjm hfull hex row hr hcontra
    obtain ⟨hsrc, htgt⟩ := hcontra
    obtain ⟨hsh, hth, hpe, hhead, hlast, hcount⟩ := allCsSegment_row_spec hr
    rw [hsrc, htgt] at hpe
    -- the full chain from k is mid.reverse ++ [j]
    have hcol : k :: chainFull (predF j) fuel k = k :: (mid.reverse ++ [j]) := by
      have h1 : (k :: chainFull (predF j) fuel k).reverse = j :: (mid ++ [k]) := hfull
      have h2 : k :: chainFull (predF j) fuel k = (j :: (mid ++ [k])).reverse := by
        rw [← h1, List.reverse_reverse]
      rw [h2]
      simp [List.reverse_cons, List.reverse_append]
    have hchain : chainFull (predF j) fuel k = mid.reverse ++ [j] := by
      injection hcol
    -- the hub-masked chain stops at the first hub inside mid.reverse
    have hexr : ∃ x ∈ mid.reverse, x ∈ hubs := by
      obtain ⟨x, hx, hxh⟩ := hex
      exact ⟨x, List.mem_reverse.mpr hx, hxh⟩
    have htrunc : chainHub (predF j) hubs fuel k = takeToHub hubs mid.reverse := by
      rw [chainHub_eq_takeToHub, hchain]
      exact takeToHub_append hubs mid.reverse [j] hexr
    obtain ⟨h, hgl, hmem, hhub⟩ := takeToHub_getLast hubs mid.reverse hexr
    -- the head of the kept path is that first hub
    have hheadp : row.path.head? = some h := by
      rw [hpe, hubStopPath_head, htrunc]
      cases htt : takeToHub hubs mid.reverse with
      | nil =>
          rw [htt] at hgl
          cases hgl
      | cons b bs =>
          rw [htt] at hgl
          rw [List.getLast?_cons_cons]
          exact hgl
    rw [hsrc] at hhead
    rw [hheadp] at hhead
    have hhj : h = j := by injection hhead
    exact hjm (hhj ▸ List.mem_reverse.mp hmem)

theorem c2_witness :
    countHubs (SegRow.mk [0, 1, 2] 0 2).path hubs5 = 2 ∧
    ¬((SegRow.mk [0, 1, 2] 0 2).source = 0 ∧ (SegRow.mk [0, 1, 2] 0 2).target = 4) := by
  have h := c2_kept_paths_exactly_two_hubs hubs5 predF5 5
  exact ⟨(h.1 ⟨[0, 1, 2], 0, 2⟩ (by decide)).1,
    h.2 0 4 [1, 2, 3] (by decide) (by decide) (by decide) (by decide)
      ⟨2, by decide, by decide⟩ ⟨[0, 1, 2], 0, 2⟩ (by decide)⟩

end OdmPath
